import Mathlib

set_option maxHeartbeats 1000000

attribute [local semireducible] Rat.mul Rat.add Rat.sub Rat.inv

/-! Verification development for the `gram---bot` roulette chat-bot
(`src/bot.py`).  The wager engine is embedded shallowly: strings are
modelled over their character lists, with Python's `str.isdigit`,
`str.lower`, whitespace handling and the two regexes modelled on ASCII,
which covers every input class the specification discusses; the SQLite
tables become a per-(chat, user) state record, and CPython's
double-precision arithmetic in `calc_payout` is modelled by explicit
IEEE-754 binary64 rounding on rationals. -/

namespace GramBot

def BONUS_AMOUNT : ℕ := 2500

def BONUS_COOLDOWN_SEC : ℕ := 24 * 60 * 60

def GO_DELAY_SEC : ℕ := 10

def MAX_CHOICES : ℕ := 16

/-- Splitting a character list into maximal nonempty whitespace-free words:
the combination of `strip()`, `re.sub(r"\s+", " ", t)` and `split(" ")`
performed at the top of `parse_bet_text` yields exactly these words. -/
def splitWs : List Char → List Char → List (List Char)
  | [], cur => if cur.isEmpty then [] else [cur.reverse]
  | c :: rest, cur =>
    if c.isWhitespace then
      if cur.isEmpty then splitWs rest [] else cur.reverse :: splitWs rest []
    else splitWs rest (c :: cur)

/-- The token list of a wager text: lower-cased, split on whitespace. -/
def tokensOf (s : String) : List String :=
  (splitWs (s.data.map Char.toLower) []).map (fun w => String.mk w)

/-- The normalized text `t` that `parse_bet_text` keeps as the bet's
`original`: lower-cased, stripped, inner whitespace collapsed. -/
def normalize (s : String) : String :=
  String.intercalate " " (tokensOf s)

/-- Python `str.isdigit` on ASCII input: nonempty and all decimal digits. -/
def isDigits (s : String) : Bool :=
  !s.data.isEmpty && s.data.all Char.isDigit

def digVal (c : Char) : ℕ := c.toNat - 48

/-- Python `int(s)` for a digit string. -/
def toNatDigits (s : String) : ℕ :=
  s.data.foldl (fun a c => 10 * a + digVal c) 0

/-- The range regex of `parse_bet_text`, `re.fullmatch` of one or two
digits, a dash, then one or two digits, with the two numeric groups. -/
def splitRange (s : String) : Option (ℕ × ℕ) :=
  match s.data with
  | [a, '-', b] =>
    if a.isDigit && b.isDigit then some (digVal a, digVal b) else none
  | [a1, a2, '-', b] =>
    if a1.isDigit && a2.isDigit && b.isDigit then
      some (10 * digVal a1 + digVal a2, digVal b)
    else none
  | [a, '-', b1, b2] =>
    if a.isDigit && b1.isDigit && b2.isDigit then
      some (digVal a, 10 * digVal b1 + digVal b2)
    else none
  | [a1, a2, '-', b1, b2] =>
    if a1.isDigit && a2.isDigit && b1.isDigit && b2.isDigit then
      some (10 * digVal a1 + digVal a2, 10 * digVal b1 + digVal b2)
    else none
  | _ => none

/-- One loop iteration of `parse_bet_text` on a single target token: a
range `a-b` is bounds-checked against 36 before swapping, normalized so
the lower end comes first and expanded to the inclusive interval; a digit
token is a single number bounds-checked against 36; any other token is
malformed. -/
def targetSet (c : String) : Option (Finset ℕ) :=
  match splitRange c with
  | some (a, b) =>
    if 36 < a || 36 < b then none
    else some (Finset.Icc (min a b) (max a b))
  | none =>
    if isDigits c then
      if 36 < toNatDigits c then none else some {toNatDigits c}
    else none

/-- The target loop of `parse_bet_text`: empty tokens are skipped (the
`if not c: continue` branch, unreachable for tokens produced by
`tokensOf`), a malformed or out-of-range token aborts the whole parse,
and target sets accumulate by union. -/
def parseChoices : List String → Finset ℕ → Option (Finset ℕ)
  | [], acc => some acc
  | c :: rest, acc =>
    if c = "" then parseChoices rest acc
    else
      match targetSet c with
      | none => none
      | some s => parseChoices rest (acc ∪ s)

/-- `parse_bet_text` of bot.py: amount token must be all digits and
positive (no upper bound is checked), at most `MAX_CHOICES = 16` target
tokens are considered (`choices = choices[:MAX_CHOICES]`, the rest are
dropped silently), the union of their sets must be nonempty, and the
normalized text is returned as the bet's `original`. -/
def parse_bet_text (text : String) : Option (ℕ × Finset ℕ × String) :=
  match tokensOf text with
  | [] => none
  | [_] => none
  | amtStr :: choices =>
    if isDigits amtStr then
      if toNatDigits amtStr = 0 then none
      else
        match parseChoices (choices.take MAX_CHOICES) ∅ with
        | none => none
        | some covered =>
          if covered = ∅ then none
          else some (toNatDigits amtStr, covered, normalize text)
    else none

/-- The outcome sets of a list of target tokens, all of which must be
well-formed: the specification-level reading of the parser's target
loop, used to characterize `parseChoices`. -/
def targetSets : List String → Option (List (Finset ℕ))
  | [] => some []
  | c :: l =>
    match targetSet c, targetSets l with
    | some s, some ss => some (s :: ss)
    | _, _ => none

/-- `2 ^ e` over ℚ for an integer exponent, written with Nat powers so
that kernel evaluation stays cheap. -/
def pow2z (e : ℤ) : ℚ :=
  if 0 ≤ e then ((2 ^ e.toNat : ℕ) : ℚ) else 1 / ((2 ^ (-e).toNat : ℕ) : ℚ)

/-- Fuel-based binary logarithm (structural recursion, so that the kernel
can evaluate it; `Nat.log2` itself is defined by well-founded recursion). -/
def log2Aux : ℕ → ℕ → ℕ
  | 0, _ => 0
  | fuel + 1, n => if n < 2 then 0 else log2Aux fuel (n / 2) + 1

def natLog2 (n : ℕ) : ℕ := log2Aux n n

/-- Floor of the base-2 logarithm of a positive rational. -/
def ilog2q (q : ℚ) : ℤ :=
  let e : ℤ := (natLog2 q.num.toNat : ℤ) - (natLog2 q.den : ℤ)
  if q < pow2z e then e - 1 else if q < pow2z (e + 1) then e else e + 1

/-- Round a rational to an integer, half to even. -/
def roundHalfEven (s : ℚ) : ℤ :=
  let f := ⌊s⌋
  if s - f < 1 / 2 then f
  else if (1 : ℚ) / 2 < s - f then f + 1
  else if f % 2 = 0 then f else f + 1

/-- Round a nonnegative rational to the nearest IEEE-754 binary64 value
(round half to even): the conversion CPython applies to `36.0 / k`, to an
int operand of a float multiplication, and to a float product.  Overflow
and subnormals lie outside the range exercised by the program. -/
def rnd (q : ℚ) : ℚ :=
  if q ≤ 0 then 0
  else
    let e := ilog2q q - 52
    (roundHalfEven (q / pow2z e) : ℚ) * pow2z e

/-- `calc_payout` of bot.py: total payout, not profit.  A miss pays 0;
the `k <= 0` guard is kept; a hit pays `int(amount * (36.0 / k))`, the
double-precision product truncated toward zero. -/
def calc_payout (amount : ℕ) (covered : Finset ℕ) (spun : ℕ) : ℕ :=
  if spun ∉ covered then 0
  else if covered.card = 0 then 0
  else (⌊rnd (rnd (amount : ℚ) * rnd (36 / (covered.card : ℚ)))⌋).toNat

/-- The exact integer payout rule stated by the specification:
`floor(amount * 36 / size)` on a hit, `0` on a miss. -/
def payoutSpec (amount : ℕ) (covered : Finset ℕ) (spun : ℕ) : ℕ :=
  if spun ∈ covered then amount * 36 / covered.card else 0

/-- A pending bet: one row of the `bets` table. -/
structure Bet where
  amount : ℕ
  covered : Finset ℕ
  created_ts : ℕ
  original : String
deriving DecidableEq

/-- The state the bot keeps for one (chat, user) pair: the `users` row
(balance and last-bonus timestamp), the `bets` row — at most one, the
table's primary key being (user_id, chat_id) —, the chat's `results`
rows listed newest first (descending id), and the fire times of spin
timers started by `threading.Timer`.  Every SQL statement of bot.py
touches only the keys of the acting user and chat, so the state of one
pair is unaffected by other users' operations and a one-pair state is a
faithful projection. -/
structure GState where
  balance : ℤ
  bet : Option Bet
  lastBonus : ℕ
  results : List ℕ
  timers : List ℕ
deriving DecidableEq

/-- `add_result`: insert a results row (it receives the next id, hence
appears first in descending-id order). -/
def add_result (num : ℕ) (s : GState) : GState :=
  { s with results := num :: s.results }

/-- `get_last_results`: `ORDER BY id DESC LIMIT limit`, newest first. -/
def get_last_results (s : GState) (limit : ℕ) : List ℕ :=
  s.results.take limit

/-- `on_log_group` renders `reversed(nums)`: the displayed order of the
last results. -/
def log_display (s : GState) : List ℕ :=
  (get_last_results s 10).reverse

/-- `place_bet`: refuse when the balance is short of the stake (reply
only, no state change); otherwise debit the stake immediately and upsert
the bet row, overwriting any pending bet of the same key.  The Boolean
reports acceptance. -/
def place_bet (nowT : ℕ) (amount : ℕ) (covered : Finset ℕ) (original : String)
    (s : GState) : GState × Bool :=
  if s.balance < (amount : ℤ) then (s, false)
  else ({ s with balance := s.balance - amount,
                 bet := some ⟨amount, covered, nowT, original⟩ }, true)

/-- `on_bet_text`: parse the group message and place the bet; unparsable
text is ignored.  (The short commands and `/`-commands skipped by the
handler never parse — they lack a leading digit token — so the skip needs
no separate branch.) -/
def on_bet_text (nowT : ℕ) (text : String) (s : GState) : GState :=
  match parse_bet_text text with
  | none => s
  | some (a, c, t) => (place_bet nowT a c t s).1

/-- `on_go_group`: with no bet row, reply "no bets" and do nothing; with
a bet, start a `threading.Timer` that fires `GO_DELAY_SEC` seconds after
the request.  No check of `created_ts` is made and no remaining seconds
are reported.  The Boolean reports whether a spin was scheduled. -/
def on_go_group (nowT : ℕ) (s : GState) : GState × Bool :=
  match s.bet with
  | none => (s, false)
  | some _ => ({ s with timers := (nowT + GO_DELAY_SEC) :: s.timers }, true)

/-- The body of `schedule_spin._run` after the bet row has been read:
insert the result row, delete the bet, credit the payout when positive. -/
def settleWith (b : Bet) (spun : ℕ) (s : GState) : GState :=
  let payout := calc_payout b.amount b.covered spun
  let s1 : GState := { add_result spun s with bet := none }
  if 0 < payout then { s1 with balance := s1.balance + payout } else s1

/-- `schedule_spin._run` executed atomically at timer-fire time: re-read
the bet row; a missing row means no draw, no result row, no credit. -/
def run_spin (spun : ℕ) (s : GState) : GState :=
  match s.bet with
  | none => s
  | some b => settleWith b spun s

/-- The `p_bonus` callback: refuse within `BONUS_COOLDOWN_SEC` of the
last claim, else record the claim time and credit `BONUS_AMOUNT`. -/
def claim_bonus (nowT : ℕ) (s : GState) : GState :=
  if nowT - s.lastBonus < BONUS_COOLDOWN_SEC then s
  else { s with lastBonus := nowT, balance := s.balance + BONUS_AMOUNT }

/-- `/give` and `/giveid`: credit a digit-parsed (hence nonnegative)
amount. -/
def cmd_give (n : ℕ) (s : GState) : GState :=
  { s with balance := s.balance + n }

/-- `/resetid`: set the balance to zero. -/
def cmd_resetid (s : GState) : GState :=
  { s with balance := 0 }

/-- Fuel-based little-endian decimal digits of a Nat, as characters. -/
def digitsAux : ℕ → ℕ → List Char
  | 0, _ => []
  | fuel + 1, n => if n = 0 then [] else Char.ofNat (48 + n % 10) :: digitsAux fuel (n / 10)

/-- Python `str(int)` for a nonnegative int, used by `cb_repeat_double`
to rebuild the wager text. -/
def natRepr (n : ℕ) : String :=
  if n = 0 then "0" else String.mk (digitsAux n n).reverse

/-- `cb_repeat_double`: the amount and tail scraped by the regex from
the bet line of the result message are taken as already extracted.  An
existing bet row forbids the action; otherwise the wager text is rebuilt
as `str(amount) + " " + tail` with the amount doubled for the double
button, re-parsed, and — funds permitting — placed like a fresh bet: the
full new stake is debited, `created_ts` is set to the callback time, and
a spin timer is started at once.  The Boolean reports acceptance. -/
def cb_repeat_double (nowT : ℕ) (lastAmount : ℕ) (tail : String)
    (double : Bool) (s : GState) : GState × Bool :=
  if s.bet.isSome then (s, false)
  else
    let amount := if double then 2 * lastAmount else lastAmount
    match parse_bet_text (natRepr amount ++ " " ++ tail) with
    | none => (s, false)
    | some (a2, covered, original) =>
      if s.balance < (a2 : ℤ) then (s, false)
      else
        ({ s with balance := s.balance - a2,
                  bet := some ⟨a2, covered, nowT, original⟩,
                  timers := (nowT + GO_DELAY_SEC) :: s.timers }, true)

/-- One inbound event of the abstract interface, as dispatched by the
handler layer of bot.py. -/
inductive Op where
  | betText (nowT : ℕ) (text : String)
  | go (nowT : ℕ)
  | spinFire (spun : ℕ)
  | bonus (nowT : ℕ)
  | give (n : ℕ)
  | reset
  | repeatDouble (nowT : ℕ) (lastAmount : ℕ) (tail : String) (double : Bool)

def applyOp (s : GState) : Op → GState
  | .betText n t => on_bet_text n t s
  | .go n => (on_go_group n s).1
  | .spinFire r => run_spin r s
  | .bonus n => claim_bonus n s
  | .give n => cmd_give n s
  | .reset => cmd_resetid s
  | .repeatDouble n a t d => (cb_repeat_double n a t d s).1

def applyOps (s : GState) (ops : List Op) : GState :=
  ops.foldl applyOp s

/-! ### Theorems -/

/-- C1.  The specification's exact rule `floor(amount * 36 / |S|)` fails
on the code: `calc_payout` truncates a double-precision float product.
For the wager "55 0-32" (33 covered numbers) and rolled 5, the code pays
59 while `floor(55*36/33) = 60` — and 55·36/33 is even exact.  The
scenario cited by the claim, 2500 on 0-9 rolling 5, does agree (9000). -/
theorem C1_float_payout_deviates_from_exact_floor :
    calc_payout 55 (Finset.Icc 0 32) 5 = 59 ∧
    payoutSpec 55 (Finset.Icc 0 32) 5 = 60 ∧
    calc_payout 2500 (Finset.Icc 0 9) 5 = 9000 ∧
    payoutSpec 2500 (Finset.Icc 0 9) 5 = 9000 := by
  exact ⟨by decide, by decide, by decide, by decide⟩

/-- C3.  `place_bet` never checks for an existing bet row: with a bet of
100 on 7 pending (its 100 GRAM stake already held) and a balance of 200,
the new wager "50 0" is accepted, 50 is debited, and the upsert replaces
the pending bet — the held 100 GRAM stake is silently discarded, where
the claim requires rejection with no state change. -/
theorem C3_pending_bet_overwritten :
    on_bet_text 1005 "50 0"
      { balance := 200, bet := some ⟨100, {7}, 1000, "100 7"⟩,
        lastBonus := 0, results := [], timers := [] }
      = { balance := 150, bet := some ⟨50, {0}, 1005, "50 0"⟩,
          lastBonus := 0, results := [], timers := [] } := by
  decide

/-- C4 counterexample.  A spin request arriving the very second the bet
was placed (elapsed 0 < 10) is not rejected and no remaining seconds are
reported: the request is accepted and a timer is armed. -/
theorem C4_counterexample :
    (on_go_group 1000
      { balance := 0, bet := some ⟨100, {7}, 1000, "100 7"⟩,
        lastBonus := 0, results := [], timers := [] }).2 = true ∧
    (on_go_group 1000
      { balance := 0, bet := some ⟨100, {7}, 1000, "100 7"⟩,
        lastBonus := 0, results := [], timers := [] }).1.timers = [1010] := by
  exact ⟨by decide, by decide⟩

/-- C4 amended.  A spin request for a pending bet is always accepted —
no cooldown comparison against `created_ts` is made and no remaining
seconds are reported; instead the draw itself is deferred to
`GO_DELAY_SEC = 10` seconds after the request, so a request at or after
placement yields a fire time no earlier than `created_ts + 10`. -/
theorem C4_spin_deferred_ten_seconds (s : GState) (nowT : ℕ) (b : Bet)
    (hb : s.bet = some b) :
    (on_go_group nowT s).2 = true ∧
    (on_go_group nowT s).1.timers = (nowT + GO_DELAY_SEC) :: s.timers ∧
    (b.created_ts ≤ nowT → b.created_ts + GO_DELAY_SEC ≤ nowT + GO_DELAY_SEC) := by
  refine ⟨?_, ?_, fun h => by omega⟩ <;> simp [on_go_group, hb]

theorem C4_spin_deferred_ten_seconds_witness :
    (on_go_group 1003
      { balance := 0, bet := some ⟨100, {7}, 1000, "100 7"⟩,
        lastBonus := 0, results := [], timers := [] }).2 = true ∧
    (on_go_group 1003
      { balance := 0, bet := some ⟨100, {7}, 1000, "100 7"⟩,
        lastBonus := 0, results := [], timers := [] }).1.timers = [1013] ∧
    (1000 ≤ 1003 → 1000 + GO_DELAY_SEC ≤ 1003 + GO_DELAY_SEC) := by
  have h := C4_spin_deferred_ten_seconds
    { balance := 0, bet := some ⟨100, {7}, 1000, "100 7"⟩,
      lastBonus := 0, results := [], timers := [] } 1003
    ⟨100, {7}, 1000, "100 7"⟩ rfl
  exact ⟨h.1, h.2.1, h.2.2⟩

/-- C5 counterexample.  With a bet of 100 on the number 7 pending and
1000 GRAM available (far more than the second 100 stake the claim asks
for), the double action is refused outright — `cb_repeat_double` bails
out whenever a bet row exists — with no debit and no change to the
pending bet, contradicting the claimed success path. -/
theorem C5_counterexample :
    cb_repeat_double 1005 100 "7" true
      { balance := 1000, bet := some ⟨100, {7}, 1000, "100 7"⟩,
        lastBonus := 0, results := [], timers := [] }
      = (⟨1000, some ⟨100, {7}, 1000, "100 7"⟩, 0, [], []⟩, false) := by
  decide

/-- C8.  Each spin timer re-reads the bet row and then settles in
separate steps with no lock between them, so two timers armed for one
pending bet can interleave as read–read–settle–settle: both observe the
bet of 100 on the number 5, and each appends a result row and credits
the 3600 payout — 7200 in total for a single 100-stake bet.  Run
atomically one after the other (`run_spin`), the second trigger instead
observes no bet and is a no-op, which is the behaviour the claim
requires of every later trigger. -/
theorem C8_concurrent_timers_double_settle :
    ({ balance := 0, bet := some ⟨100, {5}, 1000, "100 5"⟩,
       lastBonus := 0, results := [], timers := [] } : GState).bet
      = some ⟨100, {5}, 1000, "100 5"⟩ ∧
    settleWith ⟨100, {5}, 1000, "100 5"⟩ 5
      (settleWith ⟨100, {5}, 1000, "100 5"⟩ 5
        { balance := 0, bet := some ⟨100, {5}, 1000, "100 5"⟩,
          lastBonus := 0, results := [], timers := [] })
      = { balance := 7200, bet := none, lastBonus := 0,
          results := [5, 5], timers := [] } ∧
    run_spin 5 (run_spin 5
      { balance := 0, bet := some ⟨100, {5}, 1000, "100 5"⟩,
        lastBonus := 0, results := [], timers := [] })
      = run_spin 5
        { balance := 0, bet := some ⟨100, {5}, 1000, "100 5"⟩,
          lastBonus := 0, results := [], timers := [] } := by
  exact ⟨by decide, by decide, by decide⟩

/-- C9 counterexample.  After appending 1 then 2, the recent-results
query returns [2, 1] — newest first — but `on_log_group` renders
`reversed(nums)`, so the displayed order is [1, 2], oldest first, not
the claimed newest-first display order. -/
theorem C9_counterexample :
    get_last_results (add_result 2 (add_result 1
      { balance := 0, bet := none, lastBonus := 0, results := [], timers := [] })) 10
      = [2, 1] ∧
    log_display (add_result 2 (add_result 1
      { balance := 0, bet := none, lastBonus := 0, results := [], timers := [] }))
      = [1, 2] := by
  exact ⟨rfl, rfl⟩

theorem results_foldl_add_result (ns : List ℕ) (s : GState) :
    (ns.foldl (fun t n => add_result n t) s).results = ns.reverse ++ s.results := by
  induction ns generalizing s with
  | nil => rfl
  | cons n ns ih => rw [List.foldl_cons, ih]; simp [add_result]

/-- C9 amended.  After any sequence of appends the recent-results query
returns the at most 10 most recently appended outcomes, newest first;
the displayed order, however, is the reverse of that list (the oldest of
the retained 10 first). -/
theorem C9_recent_newest_first_display_reversed (s : GState) (ns : List ℕ) :
    get_last_results (ns.foldl (fun t n => add_result n t) s) 10
      = (ns.reverse ++ s.results).take 10 ∧
    (get_last_results (ns.foldl (fun t n => add_result n t) s) 10).length ≤ 10 ∧
    log_display (ns.foldl (fun t n => add_result n t) s)
      = ((ns.reverse ++ s.results).take 10).reverse := by
  refine ⟨?_, ?_, ?_⟩ <;>
    simp [get_last_results, log_display, results_foldl_add_result]

theorem splitWs_mem_ne_nil (l : List Char) :
    ∀ (cur : List Char), ∀ w ∈ splitWs l cur, w ≠ [] := by
  induction l with
  | nil =>
    intro cur w hw
    simp only [splitWs] at hw
    split at hw
    · simp at hw
    · next hc =>
      simp only [List.mem_singleton] at hw
      subst hw
      simpa [List.isEmpty_iff] using hc
  | cons c rest ih =>
    intro cur w hw
    simp only [splitWs] at hw
    split at hw
    · split at hw
      · exact ih [] w hw
      · next hc =>
        rcases List.mem_cons.1 hw with h | h
        · subst h; simpa [List.isEmpty_iff] using hc
        · exact ih [] w h
    · exact ih (c :: cur) w hw

theorem tokensOf_ne_empty (s : String) : ∀ w ∈ tokensOf s, w ≠ "" := by
  intro w hw
  simp only [tokensOf, List.mem_map] at hw
  obtain ⟨l, hl, rfl⟩ := hw
  have hne := splitWs_mem_ne_nil _ _ l hl
  intro h
  exact hne (by simpa using congrArg String.data h)

theorem parseChoices_eq_none_of_mem (c : String) (l : List String)
    (hc : c ∈ l) (hne : c ≠ "") (ht : targetSet c = none) :
    ∀ acc, parseChoices l acc = none := by
  induction l with
  | nil => cases hc
  | cons d l ih =>
    intro acc
    rcases List.mem_cons.1 hc with h | h
    · subst h
      simp only [parseChoices, if_neg hne, ht]
    · simp only [parseChoices]
      split
      · exact ih h acc
      · rcases htd : targetSet d with _ | s
        · rfl
        · exact ih h (acc ∪ s)

theorem parseChoices_eq_targetSets (l : List String) (hl : ∀ c ∈ l, c ≠ "") :
    ∀ acc, parseChoices l acc
      = (targetSets l).map (fun ss => ss.foldl (· ∪ ·) acc) := by
  induction l with
  | nil => intro acc; simp [parseChoices, targetSets]
  | cons c l ih =>
    intro acc
    have hc : c ≠ "" := hl c (List.mem_cons_self c l)
    have hl2 : ∀ x ∈ l, x ≠ "" := fun x hx => hl x (List.mem_cons_of_mem c hx)
    simp only [parseChoices, if_neg hc, targetSets]
    rcases ht : targetSet c with _ | s
    · simp
    · simp only
      rw [ih hl2]
      rcases hm : targetSets l with _ | ss <;> simp [List.foldl_cons]

theorem parse_bet_text_of_tokens_nil (text : String)
    (htok : tokensOf text = []) : parse_bet_text text = none := by
  rw [parse_bet_text.eq_def, htok]

theorem parse_bet_text_of_tokens_single (text : String) (s0 : String)
    (htok : tokensOf text = [s0]) : parse_bet_text text = none := by
  rw [parse_bet_text.eq_def, htok]

theorem parse_bet_text_of_tokens_cons (text : String) (amtStr c0 : String)
    (cs : List String) (htok : tokensOf text = amtStr :: c0 :: cs) :
    parse_bet_text text =
      (if isDigits amtStr then
        if toNatDigits amtStr = 0 then none
        else
          match parseChoices ((c0 :: cs).take MAX_CHOICES) ∅ with
          | none => none
          | some covered =>
            if covered = ∅ then none
            else some (toNatDigits amtStr, covered, normalize text)
      else none) := by
  rw [parse_bet_text.eq_def, htok]

/-- Characterization of a successful parse, used both for the parser
claims and for the repeat/double reconstruction: the token list starts
with an all-digits positive amount (no upper bound), every one of the
first `MAX_CHOICES` targets maps to an outcome set (`targetSet`: a
range normalized to its inclusive interval or a single number, both
bounded by 36), the union of those sets is the nonempty covered set,
and the normalized text is returned. -/
theorem parse_bet_text_eq_some_iff (text : String) (a : ℕ) (C : Finset ℕ)
    (t : String) :
    parse_bet_text text = some (a, C, t) ↔
      ∃ amtStr choices sets,
        tokensOf text = amtStr :: choices ∧ isDigits amtStr = true ∧
        a = toNatDigits amtStr ∧ a ≠ 0 ∧
        targetSets (choices.take MAX_CHOICES) = some sets ∧
        C = sets.foldl (· ∪ ·) ∅ ∧ C ≠ ∅ ∧ t = normalize text := by
  have hsub : ∀ (s0 : String) (chs : List String), tokensOf text = s0 :: chs →
      ∀ c ∈ chs.take MAX_CHOICES, c ≠ "" := by
    intro s0 chs htok c hcmem
    exact tokensOf_ne_empty text c
      (htok ▸ List.mem_cons_of_mem s0 (List.take_subset _ _ hcmem))
  constructor
  · intro h
    rcases htok : tokensOf text with _ | ⟨s0, chs⟩
    · rw [parse_bet_text_of_tokens_nil text htok] at h; cases h
    · rcases chs with _ | ⟨c0, cs⟩
      · rw [parse_bet_text_of_tokens_single text s0 htok] at h; cases h
      · rw [parse_bet_text_of_tokens_cons text s0 c0 cs htok] at h
        by_cases hd : isDigits s0 = true
        · rw [if_pos hd] at h
          by_cases h0 : toNatDigits s0 = 0
          · rw [if_pos h0] at h; cases h
          · rw [if_neg h0] at h
            rw [parseChoices_eq_targetSets _ (hsub s0 (c0 :: cs) htok) ∅] at h
            rcases hm : targetSets ((c0 :: cs).take MAX_CHOICES)
              with _ | sets
            · rw [hm] at h; cases h
            · rw [hm] at h
              simp only [Option.map_some'] at h
              by_cases hC0 : sets.foldl (· ∪ ·) ∅ = (∅ : Finset ℕ)
              · rw [if_pos hC0] at h; cases h
              · rw [if_neg hC0] at h
                obtain ⟨ha, hC, ht⟩ :
                    toNatDigits s0 = a ∧ sets.foldl (· ∪ ·) ∅ = C
                      ∧ normalize text = t := by
                  simpa [Prod.ext_iff] using h
                exact ⟨s0, c0 :: cs, sets, rfl, hd, ha.symm,
                  by rw [← ha]; exact h0, hm, hC.symm,
                  by rw [← hC]; exact hC0, ht.symm⟩
        · rw [if_neg hd] at h; cases h
  · rintro ⟨amtStr, choices, sets, htok, hd, ha, ha0, hm, hC, hne, ht⟩
    rcases choices with _ | ⟨c0, cs⟩
    · rw [show targetSets ([].take MAX_CHOICES) = some [] from rfl] at hm
      obtain rfl : sets = [] := by simpa using hm.symm
      simp only [List.foldl_nil] at hC
      exact absurd hC hne
    · rw [parse_bet_text_of_tokens_cons text amtStr c0 cs htok]
      rw [if_pos hd, if_neg (by rw [← ha]; exact ha0)]
      rw [parseChoices_eq_targetSets _ (hsub amtStr (c0 :: cs) htok) ∅, hm]
      simp only [Option.map_some']
      rw [if_neg (by rw [← hC]; exact hne)]
      rw [ha, ht, hC]

theorem parse_bet_text_none_of_bad_target (text amtStr : String)
    (choices : List String) (c : String)
    (htok : tokensOf text = amtStr :: choices)
    (hc : c ∈ choices.take MAX_CHOICES) (ht : targetSet c = none) :
    parse_bet_text text = none := by
  rcases choices with _ | ⟨c0, cs⟩
  · simp at hc
  · rw [parse_bet_text_of_tokens_cons text amtStr c0 cs htok]
    have hcne : c ≠ "" := tokensOf_ne_empty text c
      (htok ▸ List.mem_cons_of_mem amtStr (List.take_subset _ _ hc))
    rw [parseChoices_eq_none_of_mem c _ hc hcne ht ∅]
    by_cases hd : isDigits amtStr = true
    · rw [if_pos hd]
      by_cases h0 : toNatDigits amtStr = 0
      · rw [if_pos h0]
      · rw [if_neg h0]
    · rw [if_neg hd]

/-- C10.  Targets beyond the sixteenth are silently dropped: whenever
the token list is an all-digits positive amount followed by 16
well-formed targets and then any further tokens — malformed or
out-of-range ones included — the wager is not rejected and parses to
the union of the first 16 targets only. -/
theorem C10_targets_after_sixteenth_ignored (text amtStr : String)
    (c16 rest : List String)
    (htok : tokensOf text = amtStr :: (c16 ++ rest))
    (hlen : c16.length = 16)
    (hd : isDigits amtStr = true) (hpos : toNatDigits amtStr ≠ 0)
    (C : Finset ℕ) (hC : parseChoices c16 ∅ = some C) (hne : C ≠ ∅) :
    parse_bet_text text = some (toNatDigits amtStr, C, normalize text) := by
  rcases c16 with _ | ⟨c0, cs⟩
  · simp at hlen
  · rw [parse_bet_text_of_tokens_cons text amtStr c0 (cs ++ rest)
      (by simpa using htok)]
    rw [if_pos hd, if_neg hpos]
    have hlen2 : MAX_CHOICES = (c0 :: cs).length := by
      simp [MAX_CHOICES, hlen]
    have htake : List.take MAX_CHOICES (c0 :: (cs ++ rest)) = c0 :: cs := by
      rw [hlen2]
      exact List.take_left (c0 :: cs) rest
    rw [htake, hC]
    dsimp only
    rw [if_neg hne]

theorem C10_targets_after_sixteenth_ignored_witness :
    parse_bet_text "5 1 2 3 4 5 6 7 8 9 10 11 12 13 14 15 16 xx"
      = some (5, Finset.Icc 1 16,
          "5 1 2 3 4 5 6 7 8 9 10 11 12 13 14 15 16 xx") := by
  have h := C10_targets_after_sixteenth_ignored
    "5 1 2 3 4 5 6 7 8 9 10 11 12 13 14 15 16 xx" "5"
    ["1", "2", "3", "4", "5", "6", "7", "8", "9", "10", "11", "12", "13",
      "14", "15", "16"] ["xx"]
    (by decide) (by decide) (by decide) (by decide)
    (Finset.Icc 1 16) (by decide) (by decide)
  exact h.trans (by decide)

/-- C7 counterexample.  The claimed grammar bound
`1 <= value <= 10^9 - 1` is not enforced by the code: the amount 10^9
parses (and is accepted) although the claim requires it to be invalid. -/
theorem C7_counterexample :
    parse_bet_text "1000000000 0" = some (1000000000, {0}, "1000000000 0") ∧
    ¬(1000000000 ≤ 10 ^ 9 - 1) := by
  exact ⟨by decide, by decide⟩

/-- C7 amended.  For a wager text with at most 16 targets (`targetSets`
applies to all of them then), a parse succeeds exactly when the first
token is all digits with positive value — with no upper bound — and
every target token is a well-formed range (normalized so the lower end
comes first, expanded to the inclusive interval) or single number
within [0,36] whose union is nonempty; the parse returns that amount,
that union, and the normalized text.  In every other case — including
the claim's "abc 5" scenario — the parse fails and the group-message
handler leaves the state unchanged. -/
theorem C7_parse_validity (text : String) :
    (∀ (a : ℕ) (C : Finset ℕ) (t : String),
      parse_bet_text text = some (a, C, t) ↔
        ∃ amtStr choices sets,
          tokensOf text = amtStr :: choices ∧ isDigits amtStr = true ∧
          a = toNatDigits amtStr ∧ a ≠ 0 ∧
          targetSets (choices.take MAX_CHOICES) = some sets ∧
          C = sets.foldl (· ∪ ·) ∅ ∧ C ≠ ∅ ∧ t = normalize text) ∧
    (∀ (s : GState) (nowT : ℕ), parse_bet_text text = none →
      on_bet_text nowT text s = s) := by
  constructor
  · intro a C t
    exact parse_bet_text_eq_some_iff text a C t
  · intro s nowT h
    simp [on_bet_text, h]

theorem C7_parse_validity_witness :
    parse_bet_text "2500 0" = some (2500, {0}, "2500 0") ∧
    on_bet_text 7 "abc 5"
      { balance := 100, bet := none, lastBonus := 0, results := [], timers := [] }
      = { balance := 100, bet := none, lastBonus := 0, results := [],
          timers := [] } := by
  constructor
  · exact ((C7_parse_validity "2500 0").1 2500 {0} "2500 0").mpr
      ⟨"2500", ["0"], [{0}], by decide, by decide, by decide, by decide,
        by decide, by decide, by decide, by decide⟩
  · exact (C7_parse_validity "abc 5").2 _ 7 (by decide)

theorem digitsAux_eq (fuel : ℕ) : ∀ n, n ≤ fuel →
    digitsAux fuel n = (Nat.digits 10 n).map fun d => Char.ofNat (48 + d) := by
  induction fuel with
  | zero =>
    intro n hn
    interval_cases n
    simp [digitsAux]
  | succ fuel ih =>
    intro n hn
    by_cases h0 : n = 0
    · subst h0; simp [digitsAux]
    · simp only [digitsAux, if_neg h0]
      rw [Nat.digits_def' (by norm_num : (1:ℕ) < 10) (Nat.pos_of_ne_zero h0)]
      simp only [List.map_cons, List.cons.injEq]
      refine ⟨trivial, ?_⟩
      have hlt : n / 10 < n := Nat.div_lt_self (Nat.pos_of_ne_zero h0) (by norm_num)
      exact ih (n / 10) (by omega)

theorem digitChar_facts (d : ℕ) (hd : d < 10) :
    (Char.ofNat (48 + d)).isDigit = true ∧
    digVal (Char.ofNat (48 + d)) = d ∧
    (Char.ofNat (48 + d)).isWhitespace = false ∧
    Char.toLower (Char.ofNat (48 + d)) = Char.ofNat (48 + d) := by
  interval_cases d <;> exact ⟨by decide, by decide, by decide, by decide⟩

theorem natRepr_data (n : ℕ) (hn : n ≠ 0) :
    (natRepr n).data
      = ((Nat.digits 10 n).map fun d => Char.ofNat (48 + d)).reverse := by
  simp [natRepr, hn, digitsAux_eq n n le_rfl]

theorem natRepr_mem_facts (n : ℕ) :
    ∀ c ∈ (natRepr n).data,
      c.isDigit = true ∧ c.isWhitespace = false ∧ Char.toLower c = c := by
  by_cases hn : n = 0
  · subst hn; decide
  · intro c hc
    rw [natRepr_data n hn, List.mem_reverse, List.mem_map] at hc
    obtain ⟨d, hd, rfl⟩ := hc
    have hd10 : d < 10 :=
      Nat.digits_lt_base (by norm_num) hd
    obtain ⟨h1, _, h3, h4⟩ := digitChar_facts d hd10
    exact ⟨h1, h3, h4⟩

theorem natRepr_data_ne_nil (n : ℕ) : (natRepr n).data ≠ [] := by
  by_cases hn : n = 0
  · subst hn; decide
  · rw [natRepr_data n hn]
    simp [Nat.digits_ne_nil_iff_ne_zero, hn]

theorem natRepr_isDigits (n : ℕ) : isDigits (natRepr n) = true := by
  have h1 := natRepr_data_ne_nil n
  have h2 := natRepr_mem_facts n
  simp only [isDigits, Bool.and_eq_true, List.all_eq_true]
  exact ⟨by simpa [List.isEmpty_iff] using h1, fun c hc => (h2 c hc).1⟩

theorem natRepr_map_toLower (n : ℕ) :
    (natRepr n).data.map Char.toLower = (natRepr n).data := by
  have h := natRepr_mem_facts n
  calc (natRepr n).data.map Char.toLower
      = (natRepr n).data.map id := List.map_congr_left fun c hc => (h c hc).2.2
    _ = (natRepr n).data := List.map_id _

theorem foldl_digit_chars (L : List ℕ) (hL : ∀ d ∈ L, d < 10) :
    ∀ a : ℕ, (L.map fun d => Char.ofNat (48 + d)).foldl
        (fun x c => 10 * x + digVal c) a
      = a * 10 ^ L.length + Nat.ofDigits 10 L.reverse := by
  induction L with
  | nil => intro a; simp
  | cons d L ih =>
    intro a
    have hd : d < 10 := hL d (List.mem_cons_self d L)
    have hL2 : ∀ x ∈ L, x < 10 := fun x hx => hL x (List.mem_cons_of_mem d hx)
    simp only [List.map_cons, List.foldl_cons, (digitChar_facts d hd).2.1]
    rw [ih hL2 (10 * a + d)]
    rw [List.reverse_cons, Nat.ofDigits_append]
    simp only [List.length_cons, List.length_reverse, Nat.ofDigits_singleton]
    ring

theorem toNatDigits_natRepr (n : ℕ) : toNatDigits (natRepr n) = n := by
  by_cases hn : n = 0
  · subst hn; decide
  · have hlt : ∀ d ∈ (Nat.digits 10 n).reverse, d < 10 := by
      intro d hd
      exact Nat.digits_lt_base (by norm_num) (List.mem_reverse.1 hd)
    have hmap : (natRepr n).data
        = ((Nat.digits 10 n).reverse.map fun d => Char.ofNat (48 + d)) := by
      rw [natRepr_data n hn, List.map_reverse]
    rw [toNatDigits, hmap, foldl_digit_chars _ hlt 0]
    simp [Nat.ofDigits_digits]

theorem splitWs_no_ws_append (l2 : List Char) (l1 : List Char) :
    ∀ cur : List Char, (∀ c ∈ l1, c.isWhitespace = false) →
    cur.reverse ++ l1 ≠ [] →
    splitWs (l1 ++ ' ' :: l2) cur = (cur.reverse ++ l1) :: splitWs l2 [] := by
  induction l1 with
  | nil =>
    intro cur _ hne
    have hc : cur.isEmpty = false := by
      rcases cur with _ | ⟨x, xs⟩
      · simp at hne
      · rfl
    simp [splitWs, hc]
  | cons c l1 ih =>
    intro cur hws hne
    have hcws : c.isWhitespace = false := hws c (List.mem_cons_self c l1)
    simp only [List.cons_append, splitWs, hcws, Bool.false_eq_true, if_false]
    show splitWs (l1 ++ ' ' :: l2) (c :: cur) = (cur.reverse ++ c :: l1) :: splitWs l2 []
    rw [ih (c :: cur) (fun x hx => hws x (List.mem_cons_of_mem c hx)) (by simp)]
    simp

theorem tokensOf_natRepr_append (m : ℕ) (tl : String) :
    tokensOf (natRepr m ++ " " ++ tl) = natRepr m :: tokensOf tl := by
  have hdata : (natRepr m ++ " " ++ tl).data
      = (natRepr m).data ++ ' ' :: tl.data := by
    simp [String.data_append]
  rw [tokensOf, hdata, List.map_append, natRepr_map_toLower]
  rw [show ((' ' :: tl.data).map Char.toLower) = ' ' :: tl.data.map Char.toLower
    from by simp]
  rw [splitWs_no_ws_append (tl.data.map Char.toLower) (natRepr m).data []
    (fun c hc => (natRepr_mem_facts m c hc).2.1)
    (by simpa using natRepr_data_ne_nil m)]
  simp [tokensOf]

/-- C5 amended.  The double button is refused outright whenever a bet
row exists for the key — it never augments a pending bet — so it can
only act after settlement.  When no bet is pending it rebuilds the
wager from the scraped result-message line with the amount doubled to
`2A`, requires the balance to cover the full `2A` (not a difference),
debits `2A`, writes a fresh bet whose `created_ts` is the callback time
(the 10-second wait restarts), and arms a spin timer at once. -/
theorem C5_double_needs_no_pending_bet :
    (∀ (s : GState) (nowT lastA : ℕ) (tl : String) (d : Bool),
      s.bet.isSome = true → cb_repeat_double nowT lastA tl d s = (s, false)) ∧
    (∀ (s : GState) (nowT lastA : ℕ) (tl : String) (a2 : ℕ) (C : Finset ℕ)
        (t : String),
      s.bet = none →
      parse_bet_text (natRepr (2 * lastA) ++ " " ++ tl) = some (a2, C, t) →
      (a2 : ℤ) ≤ s.balance →
      cb_repeat_double nowT lastA tl true s
        = ({ s with balance := s.balance - a2, bet := some ⟨a2, C, nowT, t⟩, timers := (nowT + GO_DELAY_SEC) :: s.timers }, true)
      ∧ a2 = 2 * lastA) := by
  constructor
  · intro s nowT lastA tl d hbet
    simp [cb_repeat_double, hbet]
  · intro s nowT lastA tl a2 C t hbet hparse hbal
    constructor
    · simp only [cb_repeat_double, hbet, Option.isSome_none, Bool.false_eq_true,
        if_false, Bool.if_true_left, if_true]
      rw [hparse]
      dsimp only
      rw [if_neg (by omega)]
    · obtain ⟨amtStr, choices, sets, htok, _, ha, _, _, _, _, _⟩ :=
        (parse_bet_text_eq_some_iff _ a2 C t).1 hparse
      rw [tokensOf_natRepr_append (2 * lastA) tl] at htok
      have hamt : amtStr = natRepr (2 * lastA) := (List.cons.injEq _ _ _ _ ▸ htok).1.symm
      rw [ha, hamt, toNatDigits_natRepr]

theorem C5_double_needs_no_pending_bet_witness :
    cb_repeat_double 1005 100 "7" true
      { balance := 1000, bet := some ⟨100, {7}, 950, "100 7"⟩,
        lastBonus := 0, results := [], timers := [] }
      = (⟨1000, some ⟨100, {7}, 950, "100 7"⟩, 0, [], []⟩, false) ∧
    cb_repeat_double 50 100 "7" true
      { balance := 1000, bet := none, lastBonus := 0, results := [], timers := [] }
      = (⟨800, some ⟨200, {7}, 50, "200 7"⟩, 0, [], [60]⟩, true) := by
  constructor
  · exact C5_double_needs_no_pending_bet.1 _ 1005 100 "7" true (by decide)
  · have h := C5_double_needs_no_pending_bet.2
      { balance := 1000, bet := none, lastBonus := 0, results := [], timers := [] }
      50 100 "7" 200 {7} "200 7" rfl (by decide) (by decide)
    exact h.1.trans (by decide)

theorem pow2z_eq_zpow (e : ℤ) : pow2z e = (2 : ℚ) ^ e := by
  unfold pow2z
  split
  · next h =>
    push_cast
    rw [← zpow_natCast (2:ℚ) e.toNat]
    congr 1
    omega
  · next h =>
    push_cast
    rw [one_div, ← zpow_natCast (2:ℚ) (-e).toNat, ← zpow_neg]
    congr 1
    omega

theorem log2Aux_bounds : ∀ (fuel n : ℕ), 0 < n → n ≤ fuel →
    2 ^ log2Aux fuel n ≤ n ∧ n < 2 ^ (log2Aux fuel n + 1) := by
  intro fuel
  induction fuel with
  | zero => intro n h1 h2; omega
  | succ fuel ih =>
    intro n h1 h2
    by_cases hn2 : n < 2
    · have hn : n = 1 := by omega
      subst hn
      simp [log2Aux]
    · simp only [log2Aux, if_neg hn2]
      have hd : 0 < n / 2 := by omega
      have hd2 : n / 2 ≤ fuel := by omega
      obtain ⟨hl, hr⟩ := ih (n / 2) hd hd2
      have e1 : (2:ℕ) ^ (log2Aux fuel (n / 2) + 1)
          = 2 * 2 ^ log2Aux fuel (n / 2) := by ring
      have e2 : (2:ℕ) ^ (log2Aux fuel (n / 2) + 1 + 1)
          = 2 * 2 ^ (log2Aux fuel (n / 2) + 1) := by ring
      omega

theorem natLog2_bounds (n : ℕ) (h : 0 < n) :
    2 ^ natLog2 n ≤ n ∧ n < 2 ^ (natLog2 n + 1) :=
  log2Aux_bounds n n h le_rfl

theorem pow2z_natCast (k : ℕ) : pow2z (k : ℤ) = ((2 ^ k : ℕ) : ℚ) := by
  simp [pow2z]

theorem ilog2q_natCast (n : ℕ) (h : 0 < n) : ilog2q (n : ℚ) = natLog2 n := by
  obtain ⟨hl, hr⟩ := natLog2_bounds n h
  have hnum : ((n : ℚ)).num.toNat = n := by simp
  have hden : ((n : ℚ)).den = 1 := Rat.den_natCast n
  simp only [ilog2q, hnum, hden, show natLog2 1 = 0 from rfl, Nat.cast_zero,
    sub_zero]
  rw [if_neg, if_pos]
  · rw [show ((natLog2 n : ℤ) + 1) = ((natLog2 n + 1 : ℕ) : ℤ) from by
      push_cast; ring, pow2z_natCast]
    exact_mod_cast hr
  · rw [pow2z_natCast]
    exact not_lt.2 (by exact_mod_cast hl)

theorem roundHalfEven_natCast (m : ℕ) : roundHalfEven (m : ℚ) = m := by
  simp only [roundHalfEven, Int.floor_natCast]
  rw [if_pos]
  rw [show ((m:ℚ) - ((m:ℤ):ℚ)) = 0 from by push_cast; ring]
  norm_num

/-- The binary64 rounding is exact on integers below `2^53`: the key fact
about CPython's float arithmetic inside `calc_payout`. -/
theorem rnd_natCast_of_lt (n : ℕ) (h0 : 0 < n) (h53 : n < 2 ^ 53) :
    rnd (n : ℚ) = n := by
  have h2 : (2:ℚ) ≠ 0 := two_ne_zero
  have hq0 : ¬((n : ℚ) ≤ 0) := by
    simp only [not_le]
    exact_mod_cast h0
  obtain ⟨hl, hr⟩ := natLog2_bounds n h0
  have hL52 : natLog2 n ≤ 52 := by
    by_contra hgt
    have hmono : (2:ℕ) ^ 53 ≤ 2 ^ natLog2 n :=
      Nat.pow_le_pow_right (by norm_num) (by omega)
    omega
  simp only [rnd, if_neg hq0, ilog2q_natCast n h0, pow2z_eq_zpow]
  rw [show ((natLog2 n : ℤ) - 52) = -(((52 - natLog2 n : ℕ)) : ℤ) from by omega]
  rw [zpow_neg, div_eq_mul_inv, inv_inv, zpow_natCast]
  rw [show (n:ℚ) * (2:ℚ) ^ (52 - natLog2 n)
      = ((n * 2 ^ (52 - natLog2 n) : ℕ) : ℚ) from by push_cast; ring]
  rw [roundHalfEven_natCast]
  push_cast
  rw [mul_assoc, mul_inv_cancel₀ (ne_of_gt (by positivity)), mul_one]

theorem calc_payout_miss (a : ℕ) (S : Finset ℕ) (r : ℕ) (h : r ∉ S) :
    calc_payout a S r = 0 := by
  simp [calc_payout, h]

theorem calc_payout_singleton_zero (a : ℕ) (h0 : 0 < a) (hb : a ≤ 2 ^ 40) :
    calc_payout a {0} 0 = 36 * a := by
  have hmem : ¬((0:ℕ) ∉ ({0} : Finset ℕ)) := by simp
  simp only [calc_payout, if_neg hmem, Finset.card_singleton, Nat.cast_one]
  norm_num
  rw [rnd_natCast_of_lt a h0 (lt_of_le_of_lt hb (by norm_num))]
  rw [show (36:ℚ) = ((36:ℕ):ℚ) from by norm_num]
  rw [rnd_natCast_of_lt 36 (by norm_num) (by norm_num)]
  rw [show (a:ℚ) * ((36:ℕ):ℚ) = ((a * 36 : ℕ) : ℚ) from by push_cast; ring]
  have h36 : a * 36 < 2 ^ 53 := by
    have : a * 36 ≤ 2 ^ 40 * 36 := Nat.mul_le_mul_right 36 hb
    have h40 : (2:ℕ) ^ 40 * 36 < 2 ^ 53 := by norm_num
    omega
  rw [rnd_natCast_of_lt (a * 36) (by positivity) h36]
  rw [Int.floor_natCast]
  omega

/-- C6 counterexample.  The parser has no color tokens at all: "red",
"black" and "green" wagers are rejected as malformed (the color branch
is explicitly left unimplemented in the source), rather than mapping to
the 18/18/1-member outcome sets the claim describes. -/
theorem C6_counterexample :
    parse_bet_text "100 red" = none ∧
    parse_bet_text "100 black" = none ∧
    parse_bet_text "100 green" = none := by
  exact ⟨by decide, by decide, by decide⟩

/-- C6 amended.  No color alias is accepted: every non-numeric,
non-range token — "red", "black", "green" and the Russian shorthands
"к" and "ч" included — makes the whole wager invalid, so a bet on zero
is placed as the numeric target 0.  Such a singleton-zero bet pays
exactly 36× (shown for stakes up to `2^40`, where the double-precision
arithmetic is exact) and pays only when 0 is rolled; any bet whose
covered set excludes 0 — the 18-member red/black sets of the claim
included — pays nothing when 0 is rolled. -/
theorem C6_no_color_targets :
    (∀ (text amtStr : String) (choices : List String) (c : String),
      tokensOf text = amtStr :: choices → c ∈ choices.take MAX_CHOICES →
      targetSet c = none → parse_bet_text text = none) ∧
    (targetSet "red" = none ∧ targetSet "black" = none ∧
      targetSet "green" = none ∧ targetSet "к" = none ∧
      targetSet "ч" = none) ∧
    (∀ (a : ℕ) (S : Finset ℕ) (r : ℕ), r ∉ S → calc_payout a S r = 0) ∧
    (∀ a : ℕ, 0 < a → a ≤ 2 ^ 40 → calc_payout a {0} 0 = 36 * a) ∧
    (∀ (a r : ℕ), r ≠ 0 → calc_payout a {0} r = 0) := by
  refine ⟨parse_bet_text_none_of_bad_target,
    ⟨by decide, by decide, by decide, by decide, by decide⟩,
    calc_payout_miss, calc_payout_singleton_zero, ?_⟩
  intro a r hr
  exact calc_payout_miss a {0} r (by simp [hr])

theorem C6_no_color_targets_witness :
    parse_bet_text "100 red" = none ∧
    calc_payout 100 {1, 2} 0 = 0 ∧
    calc_payout 100 {0} 0 = 36 * 100 ∧
    calc_payout 100 {0} 7 = 0 := by
  refine ⟨?_, ?_, ?_, ?_⟩
  · exact C6_no_color_targets.1 "100 red" "100" ["red"] "red"
      (by decide) (by decide) (by decide)
  · exact C6_no_color_targets.2.2.1 100 {1, 2} 0 (by decide)
  · exact C6_no_color_targets.2.2.2.1 100 (by decide) (by decide)
  · exact C6_no_color_targets.2.2.2.2 100 7 (by decide)

theorem applyOp_balance_nonneg (s : GState) (op : Op)
    (h : 0 ≤ s.balance) : 0 ≤ (applyOp s op).balance := by
  cases op with
  | betText n t =>
    simp only [applyOp, on_bet_text]
    rcases hp : parse_bet_text t with _ | ⟨a, c, o⟩
    · exact h
    · simp only [place_bet]
      split
      · exact h
      · next hlt => simp only [GState.balance]; omega
  | go n =>
    simp only [applyOp, on_go_group]
    rcases s.bet with _ | b <;> simpa
  | spinFire r =>
    simp only [applyOp, run_spin]
    rcases hb : s.bet with _ | b
    · exact h
    · simp only [settleWith, add_result]
      split
      · next hp =>
        have : (0:ℤ) ≤ calc_payout b.amount b.covered r := Int.ofNat_nonneg _
        simp only [GState.balance]; omega
      · exact h
  | bonus n =>
    simp only [applyOp, claim_bonus]
    split
    · exact h
    · simp only [GState.balance]; omega
  | give n =>
    simp only [applyOp, cmd_give, GState.balance]
    have : (0:ℤ) ≤ (n:ℤ) := Int.ofNat_nonneg _
    omega
  | reset => simp [applyOp, cmd_resetid]
  | repeatDouble n a t d =>
    simp only [applyOp, cb_repeat_double]
    split
    · exact h
    · rcases hp : parse_bet_text (natRepr (if d then 2 * a else a) ++ " " ++ t)
        with _ | ⟨a2, c, o⟩
      · exact h
      · simp only
        split
        · exact h
        · next hlt => simp only [GState.balance]; omega

/-- C2.  Balance safety: starting from any nonnegative balance, every
sequence of operations (bet placement, settlement, bonus claim, admin
credit and reset, repeat/double) keeps the balance nonnegative; a bet
whose amount exceeds the balance is refused with no state change at all
(no debit, no bet row written); a bet within the balance is accepted and
debits exactly its amount. -/
theorem C2_balance_never_negative :
    (∀ (s : GState) (ops : List Op), 0 ≤ s.balance → 0 ≤ (applyOps s ops).balance) ∧
    (∀ (s : GState) (nowT a : ℕ) (c : Finset ℕ) (o : String),
      s.balance < (a : ℤ) → place_bet nowT a c o s = (s, false)) ∧
    (∀ (s : GState) (nowT a : ℕ) (c : Finset ℕ) (o : String),
      (a : ℤ) ≤ s.balance →
        place_bet nowT a c o s
          = ({ s with balance := s.balance - a, bet := some ⟨a, c, nowT, o⟩ }, true)) := by
  refine ⟨?_, ?_, ?_⟩
  · intro s ops h
    induction ops generalizing s with
    | nil => exact h
    | cons op ops ih =>
      exact ih (applyOp s op) (applyOp_balance_nonneg s op h)
  · intro s nowT a c o hlt
    simp [place_bet, hlt]
  · intro s nowT a c o hle
    rw [place_bet, if_neg (by omega)]

theorem C2_balance_never_negative_witness :
    0 ≤ (applyOps ⟨0, none, 0, [], []⟩
        [Op.give 100, Op.betText 5 "50 0", Op.spinFire 0]).balance ∧
    place_bet 5 300 {0} "300 0"
      { balance := 200, bet := none, lastBonus := 0, results := [], timers := [] }
      = (⟨200, none, 0, [], []⟩, false) ∧
    place_bet 5 50 {0} "50 0"
      { balance := 200, bet := none, lastBonus := 0, results := [], timers := [] }
      = (⟨150, some ⟨50, {0}, 5, "50 0"⟩, 0, [], []⟩, true) := by
  refine ⟨C2_balance_never_negative.1 _ _ (by decide), ?_, ?_⟩
  · exact C2_balance_never_negative.2.1 _ 5 300 {0} "300 0" (by decide)
  · have h := C2_balance_never_negative.2.2
      { balance := 200, bet := none, lastBonus := 0, results := [], timers := [] }
      5 50 {0} "50 0" (by decide)
    simpa using h

end GramBot
